import Mathlib

/-!
Shallow embedding of `src/model.py` (cosmicpython chapter-1 domain model):
the `OrderLine` value object, the mutable `Batch` entity, and the
`allocate` domain service.

Modelling choices, each justified by the source:
* Python `int` is arbitrary precision, embedded as `Int`; `datetime.date`
  is a linearly ordered value, embedded as `Int` (ordinal day).
* `Batch._allocations` is a Python `set` of (hashable, frozen) `OrderLine`
  values; it is embedded as a duplicate-free `List OrderLine` where
  `set.add` inserts only when absent and `set.remove` erases the (unique)
  occurrence.  All observations (sums, membership) are order independent.
* Mutation is embedded by explicit state passing: `Batch.allocate` /
  `Batch.deallocate` return the updated batch, and the domain service
  returns the updated batch list together with its result.
* Python's `sorted(batches)` uses Timsort, a stable sort driven by `a < b`;
  since `Batch` defines only `__gt__`, `a < b` falls back to the reflected
  `b.__gt__(a)`.  A stable sort w.r.t. that strict comparison is embedded
  as `List.insertionSort` with the total preorder
  `batchLe a b := (Batch.gt a b = false)` ("a is not strictly after b"),
  which places each element before all elements equivalent to it that
  occur later in the input — exactly Python's stable order.
* The service mutates the selected batch object in place.  In the
  embedding the selected value replaces its first structural occurrence in
  the input list (`replaceFirst`).  This coincides with Python's
  identity-based mutation: structurally equal batches are equivalent for
  the sort, so by stability the first input occurrence is the one the scan
  selects.
* `raise OutOfStock(...)` aborts the call without touching any batch; the
  embedding returns `Except.error` together with the unchanged batch list.
-/

namespace Model

/-- The `OrderLine` value object (`@dataclass(frozen=True)`): structural
equality on all three fields. -/
structure OrderLine where
  orderid : String
  sku : String
  qty : Int
deriving DecidableEq

/-- The `OutOfStock(Exception)` error: carries only the message string
it was raised with. -/
structure OutOfStock where
  msg : String
deriving DecidableEq

/-- The `Batch` entity state: constructor fields plus the `_allocations` set
(embedded as a duplicate-free list). -/
structure Batch where
  reference : String
  sku : String
  eta : Option Int
  purchased_quantity : Int
  allocations : List OrderLine
deriving DecidableEq

/-- Constructor `Batch.__init__(ref, sku, qty, eta)`: starts with an empty
allocations set. -/
def Batch.mkNew (ref sku : String) (qty : Int) (eta : Option Int) : Batch :=
  ⟨ref, sku, eta, qty, []⟩

/-- Property `Batch.allocated_quantity`: `sum(line.qty for line in self._allocations)`. -/
def Batch.allocated_quantity (b : Batch) : Int :=
  (b.allocations.map OrderLine.qty).sum

/-- Property `Batch.available_quantity`: `self._purchased_quantity - self.allocated_quantity`. -/
def Batch.available_quantity (b : Batch) : Int :=
  b.purchased_quantity - b.allocated_quantity

/-- Method `Batch.can_allocate(line)`: `self.sku == line.sku and self.available_quantity >= line.qty`. -/
def Batch.can_allocate (b : Batch) (line : OrderLine) : Bool :=
  b.sku == line.sku && decide (line.qty ≤ b.available_quantity)

/-- Method `Batch.allocate(line)`: `if self.can_allocate(line): self._allocations.add(line)`;
`set.add` is a no-op when the element is already present. -/
def Batch.allocate (b : Batch) (line : OrderLine) : Batch :=
  if b.can_allocate line then
    { b with allocations :=
        if line ∈ b.allocations then b.allocations else b.allocations ++ [line] }
  else b

/-- Method `Batch.deallocate(line)`: `if line in self._allocations: self._allocations.remove(line)`;
`List.erase` is a no-op when the element is absent. -/
def Batch.deallocate (b : Batch) (line : OrderLine) : Batch :=
  { b with allocations := b.allocations.erase line }

/-- Comparison `Batch.__gt__(self, other)`: `None` eta is never greater; a batch with
an eta is greater than one without; otherwise compare etas. -/
def Batch.gt (self other : Batch) : Bool :=
  match self.eta, other.eta with
  | none, _ => false
  | some _, none => true
  | some se, some oe => decide (oe < se)

/-- The total preorder driving Python's stable `sorted(batches)`:
`a` may come no later than `b` iff `a` is not strictly greater. -/
def batchLe (a b : Batch) : Prop := Batch.gt a b = false

instance : DecidableRel batchLe :=
  fun a b => inferInstanceAs (Decidable (Batch.gt a b = false))

/-- Python `sorted(batches)`: stable sort by the reflected `__gt__` comparison. -/
def sortBatches (batches : List Batch) : List Batch :=
  List.insertionSort batchLe batches

/-- In-place mutation of one object of the caller's list: replace the
first structural occurrence of `b` by `b2`. -/
def replaceFirst : List Batch → Batch → Batch → List Batch
  | [], _, _ => []
  | x :: xs, b, b2 => if x = b then b2 :: xs else x :: replaceFirst xs b b2

/-- Domain service `allocate(line, batches)`: scan the stably sorted
batches for the first that can allocate; on success mutate it and return
its reference, on `StopIteration` raise `OutOfStock` (the source's
message is the f-string `f"Out of stock for sku"`, which interpolates
nothing) leaving every batch untouched. -/
def allocate (line : OrderLine) (batches : List Batch) :
    Except OutOfStock String × List Batch :=
  match (sortBatches batches).find? (fun b => b.can_allocate line) with
  | some b => (Except.ok b.reference, replaceFirst batches b (b.allocate line))
  | none => (Except.error ⟨"Out of stock for sku"⟩, batches)

end Model

namespace Model

/-! ### Basic lemmas about the `Batch` operations -/

theorem Batch.allocate_reference (b : Batch) (l : OrderLine) :
    (b.allocate l).reference = b.reference := by
  unfold Batch.allocate; split <;> rfl

theorem Batch.allocate_sku (b : Batch) (l : OrderLine) :
    (b.allocate l).sku = b.sku := by
  unfold Batch.allocate; split <;> rfl

theorem Batch.allocate_eta (b : Batch) (l : OrderLine) :
    (b.allocate l).eta = b.eta := by
  unfold Batch.allocate; split <;> rfl

theorem Batch.allocate_purchased (b : Batch) (l : OrderLine) :
    (b.allocate l).purchased_quantity = b.purchased_quantity := by
  unfold Batch.allocate; split <;> rfl

theorem Batch.can_allocate_iff (b : Batch) (l : OrderLine) :
    b.can_allocate l = true ↔ b.sku = l.sku ∧ l.qty ≤ b.available_quantity := by
  simp [Batch.can_allocate]

theorem Batch.allocate_of_fresh (b : Batch) (l : OrderLine)
    (hc : b.can_allocate l = true) (hfresh : l ∉ b.allocations) :
    b.allocate l = { b with allocations := b.allocations ++ [l] } := by
  unfold Batch.allocate
  rw [if_pos hc, if_neg hfresh]

theorem Batch.mem_allocations_allocate (b : Batch) (l : OrderLine)
    (hc : b.can_allocate l = true) : l ∈ (b.allocate l).allocations := by
  unfold Batch.allocate
  rw [if_pos hc]
  by_cases h : l ∈ b.allocations <;> simp [h]

theorem Batch.allocate_of_not_can (b : Batch) (l : OrderLine)
    (hc : ¬ b.can_allocate l = true) : b.allocate l = b := by
  unfold Batch.allocate; rw [if_neg hc]

theorem Batch.allocate_of_mem (b : Batch) (l : OrderLine)
    (hmem : l ∈ b.allocations) : b.allocate l = b := by
  unfold Batch.allocate
  split
  · simp [hmem]
  · rfl

/-- Re-allocating the very same line is always a no-op: the second call
either fails `can_allocate` or re-adds an element already in the set. -/
theorem Batch.allocate_idem (b : Batch) (l : OrderLine) :
    (b.allocate l).allocate l = b.allocate l := by
  by_cases hc : b.can_allocate l = true
  · exact Batch.allocate_of_mem _ l (b.mem_allocations_allocate l hc)
  · rw [b.allocate_of_not_can l hc, b.allocate_of_not_can l hc]

/-- Allocating a fresh eligible line, then deallocating it, restores the
whole batch state. -/
theorem Batch.allocate_deallocate_of_fresh (b : Batch) (l : OrderLine)
    (hfresh : l ∉ b.allocations) : (b.allocate l).deallocate l = b := by
  by_cases hc : b.can_allocate l = true
  · rw [b.allocate_of_fresh l hc hfresh]
    unfold Batch.deallocate
    simp [List.erase_append_right _ hfresh]
  · rw [b.allocate_of_not_can l hc]
    unfold Batch.deallocate
    simp [List.erase_of_not_mem hfresh]

/-! ### The batch ordering -/

/-- Since `Batch.__gt__` depends only on the two etas, it equals this
comparison expressed directly on them. -/
def gtOpt : Option Int → Option Int → Bool
  | none, _ => false
  | some _, none => true
  | some se, some oe => decide (oe < se)

theorem Batch.gt_eq_gtOpt (u v : Batch) : Batch.gt u v = gtOpt u.eta v.eta := by
  unfold Batch.gt gtOpt
  cases u.eta <;> cases v.eta <;> rfl

theorem gtOpt_of_eq (x y : Option Int) (h : x = y) : gtOpt x y = false := by
  cases h; cases x <;> simp [gtOpt]

theorem gtOpt_asymm {x y : Option Int} (h : gtOpt x y = true) :
    gtOpt y x = false := by
  cases x <;> cases y <;> simp [gtOpt] at * <;> omega

theorem gtOpt_eq_of_not {x y : Option Int}
    (hxy : gtOpt x y = false) (hyx : gtOpt y x = false) : x = y := by
  cases x <;> cases y <;> simp [gtOpt] at * <;> omega

theorem gtOpt_le_trans {x y z : Option Int}
    (hxy : gtOpt x y = false) (hyz : gtOpt y z = false) : gtOpt x z = false := by
  cases x <;> cases y <;> cases z <;> simp [gtOpt] at * <;> omega

theorem batchLe_total (a b : Batch) : batchLe a b ∨ batchLe b a := by
  unfold batchLe
  rw [Batch.gt_eq_gtOpt, Batch.gt_eq_gtOpt]
  by_cases h : gtOpt a.eta b.eta = true
  · exact Or.inr (gtOpt_asymm h)
  · exact Or.inl (Bool.not_eq_true _ ▸ h)

theorem batchLe_trans {a b c : Batch}
    (hab : batchLe a b) (hbc : batchLe b c) : batchLe a c := by
  unfold batchLe at *
  rw [Batch.gt_eq_gtOpt] at *
  exact gtOpt_le_trans hab hbc

instance : IsTotal Batch batchLe := ⟨batchLe_total⟩

instance : IsTrans Batch batchLe := ⟨fun _ _ _ => batchLe_trans⟩

/-! ### List helper lemmas -/

/-- A successful `find?` splits the list at the found element, with
nothing in the prefix satisfying the predicate. -/
theorem findSplit {α : Type} {p : α → Bool} :
    ∀ {l : List α} {b : α}, l.find? p = some b →
      ∃ l₁ l₂, l = l₁ ++ b :: l₂ ∧ ∀ x ∈ l₁, p x = false
  | [], b, h => by simp [List.find?] at h
  | a :: t, b, h => by
    by_cases ha : p a = true
    · rw [List.find?_cons_of_pos _ ha] at h
      exact ⟨[], t, by rw [Option.some.inj h]; rfl, by simp⟩
    · rw [List.find?_cons_of_neg _ ha] at h
      obtain ⟨l₁, l₂, hl, hpre⟩ := findSplit h
      refine ⟨a :: l₁, l₂, by rw [hl]; rfl, ?_⟩
      intro x hx
      rcases List.mem_cons.1 hx with hxa | hxl
      · rw [hxa]; exact Bool.not_eq_true _ ▸ ha
      · exact hpre x hxl

/-- Stability of `orderedInsert` seen through a filter whose satisfying
elements are pairwise order-equivalent. -/
theorem filter_orderedInsert (q : Batch → Bool)
    (he : ∀ u v : Batch, q u = true → q v = true → Batch.gt u v = false)
    (x : Batch) :
    ∀ l : List Batch,
      (List.orderedInsert batchLe x l).filter q
        = if q x then x :: l.filter q else l.filter q
  | [] => by
    simp only [List.orderedInsert, List.filter]
    split <;> rename_i h <;> simp [h]
  | y :: ys => by
    simp only [List.orderedInsert]
    by_cases hle : batchLe x y
    · rw [if_pos hle]
      by_cases hqx : q x = true <;> simp [List.filter, hqx]
    · rw [if_neg hle]
      have hgt : Batch.gt x y = true := by
        unfold batchLe at hle
        exact Bool.of_not_eq_false hle
      by_cases hqx : q x = true
      · have hqy : q y = false := by
          by_cases h : q y = true
          · exact absurd (he x y hqx h) (by rw [hgt]; simp)
          · exact Bool.not_eq_true _ ▸ h
        simp [List.filter, hqy, filter_orderedInsert q he x ys, hqx]
      · have hqx' : q x = false := Bool.not_eq_true _ ▸ hqx
        by_cases hqy : q y = true <;>
          simp [List.filter, hqy, filter_orderedInsert q he x ys, hqx']

/-- Stability of the batch sort: the subsequence of order-equivalent
elements selected by `q` appears in the output in its input order. -/
theorem filter_sortBatches (q : Batch → Bool)
    (he : ∀ u v : Batch, q u = true → q v = true → Batch.gt u v = false) :
    ∀ bs : List Batch, (sortBatches bs).filter q = bs.filter q
  | [] => rfl
  | b :: t => by
    have ih := filter_sortBatches q he t
    unfold sortBatches at ih ⊢
    simp only [List.insertionSort]
    rw [filter_orderedInsert q he b (List.insertionSort batchLe t), ih]
    by_cases hqb : q b = true <;> simp [List.filter, hqb]

/-! ### Lemmas about `replaceFirst` and the domain service -/

theorem replaceFirst_of_mem (b2 : Batch) {b : Batch} :
    ∀ {l : List Batch}, b ∈ l →
      ∃ l₁ l₂, l = l₁ ++ b :: l₂ ∧ b ∉ l₁ ∧
        replaceFirst l b b2 = l₁ ++ b2 :: l₂
  | [], h => absurd h (List.not_mem_nil b)
  | x :: xs, h => by
    by_cases hx : x = b
    · refine ⟨[], xs, by rw [hx]; rfl, by simp, ?_⟩
      unfold replaceFirst
      rw [if_pos hx]
      rfl
    · have hmem : b ∈ xs := by
        rcases List.mem_cons.1 h with h1 | h2
        · exact absurd h1.symm hx
        · exact h2
      obtain ⟨l₁, l₂, hl, hnot, hrep⟩ := replaceFirst_of_mem b2 hmem
      refine ⟨x :: l₁, l₂, by rw [List.cons_append, ← hl], ?_, ?_⟩
      · intro hcontra
        rcases List.mem_cons.1 hcontra with h1 | h2
        · exact hx h1.symm
        · exact hnot h2
      · unfold replaceFirst
        rw [if_neg hx, hrep]
        rfl

theorem replaceFirst_self : ∀ (l : List Batch) (b : Batch), replaceFirst l b b = l
  | [], _ => rfl
  | x :: xs, b => by
    unfold replaceFirst
    by_cases hx : x = b
    · rw [if_pos hx, hx]
    · rw [if_neg hx, replaceFirst_self xs b]

theorem mem_replaceFirst {x b b2 : Batch} :
    ∀ {l : List Batch}, x ∈ replaceFirst l b b2 → x ∈ l ∨ x = b2
  | [], h => Or.inl h
  | y :: ys, h => by
    unfold replaceFirst at h
    by_cases hy : y = b
    · rw [if_pos hy] at h
      rcases List.mem_cons.1 h with h1 | h2
      · exact Or.inr h1
      · exact Or.inl (List.mem_cons_of_mem y h2)
    · rw [if_neg hy] at h
      rcases List.mem_cons.1 h with h1 | h2
      · exact Or.inl (h1 ▸ List.mem_cons_self y ys)
      · rcases mem_replaceFirst h2 with h3 | h4
        · exact Or.inl (List.mem_cons_of_mem y h3)
        · exact Or.inr h4

theorem forall₂_replaceFirst (b b2 : Batch) :
    ∀ l : List Batch,
      List.Forall₂ (fun u v => u = v ∨ (u = b ∧ v = b2)) l (replaceFirst l b b2)
  | [] => List.Forall₂.nil
  | x :: xs => by
    unfold replaceFirst
    by_cases hx : x = b
    · rw [if_pos hx]
      exact List.Forall₂.cons (Or.inr ⟨hx, rfl⟩)
        (List.forall₂_same.2 fun y _ => Or.inl rfl)
    · rw [if_neg hx]
      exact List.Forall₂.cons (Or.inl rfl) (forall₂_replaceFirst b b2 xs)

theorem allocate_eq_of_found {line : OrderLine} {bs : List Batch} {b : Batch}
    (h : (sortBatches bs).find? (fun x => x.can_allocate line) = some b) :
    allocate line bs
      = (Except.ok b.reference, replaceFirst bs b (b.allocate line)) := by
  unfold allocate
  rw [h]

theorem allocate_eq_of_not_found {line : OrderLine} {bs : List Batch}
    (h : (sortBatches bs).find? (fun x => x.can_allocate line) = none) :
    allocate line bs = (Except.error ⟨"Out of stock for sku"⟩, bs) := by
  unfold allocate
  rw [h]

/-! ### Claim theorems: domain service -/

/-- C2: whenever some batch of the list can allocate the line, the service
picks the first eligible batch of the stably sorted list (everything
before it in the sorted order is ineligible), returns that batch's
reference, and replaces exactly that batch by its updated version, whose
allocations now contain the line. -/
theorem allocate_selects_first_eligible_in_sorted_order
    (line : OrderLine) (bs : List Batch)
    (h : ∃ b ∈ bs, b.can_allocate line = true) :
    ∃ b l₁ l₂,
      sortBatches bs = l₁ ++ b :: l₂ ∧
      (∀ x ∈ l₁, x.can_allocate line = false) ∧
      b.can_allocate line = true ∧
      (allocate line bs).1 = Except.ok b.reference ∧
      (allocate line bs).2 = replaceFirst bs b (b.allocate line) ∧
      line ∈ (b.allocate line).allocations := by
  obtain ⟨b₀, hb₀, hc₀⟩ := h
  have hmem : b₀ ∈ sortBatches bs := (List.mem_insertionSort batchLe).2 hb₀
  have hne : (sortBatches bs).find? (fun x => x.can_allocate line) ≠ none := by
    intro hn
    exact (List.find?_eq_none.1 hn b₀ hmem) hc₀
  obtain ⟨b, hb⟩ := Option.ne_none_iff_exists'.1 hne
  have hcb : b.can_allocate line = true :=
    List.find?_some (p := fun (x : Batch) => x.can_allocate line) hb
  obtain ⟨l₁, l₂, hsplit, hpre⟩ := findSplit hb
  rw [allocate_eq_of_found hb]
  exact ⟨b, l₁, l₂, hsplit, hpre, hcb, rfl, rfl,
    b.mem_allocations_allocate line hcb⟩

/-- Witness for C2: warehouse stock is selected ahead of the in-transit
batch listed before it. -/
theorem allocate_selects_first_eligible_in_sorted_order_witness :
    ∃ b l₁ l₂,
      sortBatches [Batch.mkNew "ship" "LAMP" 20 (some 10),
                   Batch.mkNew "wh" "LAMP" 20 none] = l₁ ++ b :: l₂ ∧
      (∀ x ∈ l₁, x.can_allocate ⟨"o1", "LAMP", 2⟩ = false) ∧
      b.can_allocate ⟨"o1", "LAMP", 2⟩ = true ∧
      (allocate ⟨"o1", "LAMP", 2⟩
        [Batch.mkNew "ship" "LAMP" 20 (some 10),
         Batch.mkNew "wh" "LAMP" 20 none]).1 = Except.ok b.reference ∧
      (allocate ⟨"o1", "LAMP", 2⟩
        [Batch.mkNew "ship" "LAMP" 20 (some 10),
         Batch.mkNew "wh" "LAMP" 20 none]).2
        = replaceFirst [Batch.mkNew "ship" "LAMP" 20 (some 10),
                        Batch.mkNew "wh" "LAMP" 20 none] b
            (b.allocate ⟨"o1", "LAMP", 2⟩) ∧
      (⟨"o1", "LAMP", 2⟩ : OrderLine) ∈ (b.allocate ⟨"o1", "LAMP", 2⟩).allocations :=
  allocate_selects_first_eligible_in_sorted_order ⟨"o1", "LAMP", 2⟩
    [Batch.mkNew "ship" "LAMP" 20 (some 10), Batch.mkNew "wh" "LAMP" 20 none]
    (by decide)

/-- C4: the service raises `OutOfStock` exactly when no batch of the list
can allocate the line (in particular for the empty list), and in that
case the batch list is returned untouched — the exception path performs
no mutation. -/
theorem allocate_raises_out_of_stock_iff_no_eligible_batch
    (line : OrderLine) (bs : List Batch) :
    ((allocate line bs).1 = Except.error ⟨"Out of stock for sku"⟩ ↔
        ∀ b ∈ bs, b.can_allocate line = false) ∧
    ((∀ b ∈ bs, b.can_allocate line = false) → (allocate line bs).2 = bs) := by
  cases hfind : (sortBatches bs).find? (fun x => x.can_allocate line) with
  | none =>
    rw [allocate_eq_of_not_found hfind]
    refine ⟨⟨fun _ b hb => ?_, fun _ => rfl⟩, fun _ => rfl⟩
    have hmem : b ∈ sortBatches bs := (List.mem_insertionSort batchLe).2 hb
    have := List.find?_eq_none.1 hfind b hmem
    simpa using this
  | some b =>
    have hcb : b.can_allocate line = true :=
      List.find?_some (p := fun (x : Batch) => x.can_allocate line) hfind
    have hmem : b ∈ bs :=
      (List.mem_insertionSort batchLe).1 (List.mem_of_find?_eq_some hfind)
    rw [allocate_eq_of_found hfind]
    have hne : ¬ ∀ x ∈ bs, x.can_allocate line = false := by
      intro hall
      rw [hall b hmem] at hcb
      exact Bool.false_ne_true hcb
    exact ⟨⟨fun h => absurd h (by simp), fun hall => absurd hall hne⟩,
      fun hall => absurd hall hne⟩

/-- Witness for C4: a single wrong-SKU batch makes the service raise the
`OutOfStock` error and leave the list unchanged. -/
theorem allocate_raises_out_of_stock_iff_no_eligible_batch_witness :
    (allocate ⟨"o1", "AAA", 1⟩ [Batch.mkNew "b" "BBB" 5 none]).1
        = Except.error ⟨"Out of stock for sku"⟩ ∧
    (allocate ⟨"o1", "AAA", 1⟩ [Batch.mkNew "b" "BBB" 5 none]).2
        = [Batch.mkNew "b" "BBB" 5 none] :=
  ⟨(allocate_raises_out_of_stock_iff_no_eligible_batch
      ⟨"o1", "AAA", 1⟩ [Batch.mkNew "b" "BBB" 5 none]).1.2 (by decide),
   (allocate_raises_out_of_stock_iff_no_eligible_batch
      ⟨"o1", "AAA", 1⟩ [Batch.mkNew "b" "BBB" 5 none]).2 (by decide)⟩

/-- C5: on success exactly the selected batch is replaced in place — the
output list keeps every other position bit-for-bit — and the selected
batch keeps its reference, SKU, eta and purchased quantity, only its
allocations set being updated. -/
theorem allocate_mutates_only_selected_batch
    (line : OrderLine) (bs : List Batch) (r : String)
    (h : (allocate line bs).1 = Except.ok r) :
    ∃ b l₁ l₂,
      bs = l₁ ++ b :: l₂ ∧
      (allocate line bs).2 = l₁ ++ b.allocate line :: l₂ ∧
      r = b.reference ∧
      (b.allocate line).reference = b.reference ∧
      (b.allocate line).sku = b.sku ∧
      (b.allocate line).eta = b.eta ∧
      (b.allocate line).purchased_quantity = b.purchased_quantity := by
  cases hfind : (sortBatches bs).find? (fun x => x.can_allocate line) with
  | none =>
    rw [allocate_eq_of_not_found hfind] at h
    exact absurd h (by simp)
  | some b =>
    rw [allocate_eq_of_found hfind] at h ⊢
    have hr : r = b.reference := (Except.ok.inj h).symm
    have hmem : b ∈ bs :=
      (List.mem_insertionSort batchLe).1 (List.mem_of_find?_eq_some hfind)
    obtain ⟨l₁, l₂, hl, _, hrep⟩ := replaceFirst_of_mem (b.allocate line) hmem
    exact ⟨b, l₁, l₂, hl, hrep, hr, b.allocate_reference line,
      b.allocate_sku line, b.allocate_eta line, b.allocate_purchased line⟩

/-- Witness for C5 on a two-batch list whose second batch is selected. -/
theorem allocate_mutates_only_selected_batch_witness :
    ∃ b l₁ l₂,
      [Batch.mkNew "ship" "LAMP" 20 (some 10), Batch.mkNew "wh" "LAMP" 20 none]
        = l₁ ++ b :: l₂ ∧
      (allocate ⟨"o1", "LAMP", 2⟩
        [Batch.mkNew "ship" "LAMP" 20 (some 10),
         Batch.mkNew "wh" "LAMP" 20 none]).2
        = l₁ ++ b.allocate ⟨"o1", "LAMP", 2⟩ :: l₂ ∧
      ("wh" : String) = b.reference ∧
      (b.allocate ⟨"o1", "LAMP", 2⟩).reference = b.reference ∧
      (b.allocate ⟨"o1", "LAMP", 2⟩).sku = b.sku ∧
      (b.allocate ⟨"o1", "LAMP", 2⟩).eta = b.eta ∧
      (b.allocate ⟨"o1", "LAMP", 2⟩).purchased_quantity = b.purchased_quantity :=
  allocate_mutates_only_selected_batch ⟨"o1", "LAMP", 2⟩
    [Batch.mkNew "ship" "LAMP" 20 (some 10), Batch.mkNew "wh" "LAMP" 20 none]
    "wh" rfl

/-! ### Claim theorems: entity level -/

/-- C1 (code bug witness): the `OutOfStock` error raised by the domain
service is the constant message `"Out of stock for sku"` — the source's
f-string interpolates nothing — so two lines with different SKUs produce
the identical error value, which therefore does not identify the SKU. -/
theorem out_of_stock_error_message_is_constant :
    (allocate ⟨"o1", "AAA", 1⟩ []).1 = Except.error ⟨"Out of stock for sku"⟩ ∧
    (allocate ⟨"o2", "BBB", 1⟩ []).1 = Except.error ⟨"Out of stock for sku"⟩ ∧
    (allocate ⟨"o1", "AAA", 1⟩ []).1 = (allocate ⟨"o2", "BBB", 1⟩ []).1 :=
  ⟨rfl, rfl, rfl⟩

/-- C8: `can_allocate` returns true iff the line's SKU equals the batch's
SKU and the available quantity covers the requested quantity.  It is a
pure predicate: in this embedding it is a function into `Bool` that
returns no updated batch, mirroring that the method reads but never
writes state. -/
theorem can_allocate_iff_sku_matches_and_quantity_available
    (b : Batch) (l : OrderLine) :
    b.can_allocate l = true ↔ l.sku = b.sku ∧ l.qty ≤ b.available_quantity := by
  rw [Batch.can_allocate_iff, eq_comm]

/-- C3: the comparison driving the allocation sort — `batchLe a b` holds
iff `a` need not come after `b`, i.e. `Batch.__gt__(a, b)` is false — is a
total preorder in which a batch without an eta sorts strictly before any
batch with one, among batches with etas the earlier eta sorts strictly
first, and two batches are order-equivalent exactly when their etas are
equal; `sortBatches` orders by it (sorted permutation) and is stable:
batches with any given eta keep their input order. -/
theorem batch_order_warehouse_first_then_eta_and_sort_stable :
    (∀ a b : Batch, a.eta = none → b.eta ≠ none → batchLe a b ∧ ¬ batchLe b a) ∧
    (∀ a b : Batch, ∀ d₁ d₂ : Int, a.eta = some d₁ → b.eta = some d₂ → d₁ < d₂ →
        batchLe a b ∧ ¬ batchLe b a) ∧
    (∀ a b : Batch, batchLe a b ∨ batchLe b a) ∧
    (∀ a b c : Batch, batchLe a b → batchLe b c → batchLe a c) ∧
    (∀ a b : Batch, batchLe a b → batchLe b a → a.eta = b.eta) ∧
    (∀ bs : List Batch, (sortBatches bs).Perm bs ∧ (sortBatches bs).Sorted batchLe) ∧
    (∀ bs : List Batch, ∀ e : Option Int,
        (sortBatches bs).filter (fun x => x.eta == e)
          = bs.filter (fun x => x.eta == e)) := by
  refine ⟨?_, ?_, batchLe_total, fun a b c => batchLe_trans, ?_, ?_, ?_⟩
  · intro a b ha hb
    obtain ⟨d, hd⟩ := Option.ne_none_iff_exists'.1 hb
    constructor
    · unfold batchLe
      rw [Batch.gt_eq_gtOpt, ha]
      rfl
    · unfold batchLe
      rw [Batch.gt_eq_gtOpt, ha, hd]
      simp [gtOpt]
  · intro a b d₁ d₂ ha hb hlt
    constructor
    · unfold batchLe
      rw [Batch.gt_eq_gtOpt, ha, hb]
      simp [gtOpt]
      omega
    · unfold batchLe
      rw [Batch.gt_eq_gtOpt, ha, hb]
      simp [gtOpt]
      omega
  · intro a b hab hba
    unfold batchLe at hab hba
    rw [Batch.gt_eq_gtOpt] at hab hba
    exact gtOpt_eq_of_not hab hba
  · intro bs
    exact ⟨List.perm_insertionSort batchLe bs, List.sorted_insertionSort batchLe bs⟩
  · intro bs e
    apply filter_sortBatches
    intro u v hu hv
    rw [Batch.gt_eq_gtOpt]
    exact gtOpt_of_eq _ _ (beq_iff_eq.1 hu ▸ beq_iff_eq.1 hv ▸ rfl)

/-- Witness for C3 at concrete batches: a warehouse batch (no eta) sorts
strictly before an in-transit one, and an earlier eta sorts strictly
before a later one. -/
theorem batch_order_warehouse_first_then_eta_and_sort_stable_witness :
    (batchLe (Batch.mkNew "w" "S" 5 none) (Batch.mkNew "t" "S" 5 (some 3)) ∧
      ¬ batchLe (Batch.mkNew "t" "S" 5 (some 3)) (Batch.mkNew "w" "S" 5 none)) ∧
    (batchLe (Batch.mkNew "t1" "S" 5 (some 3)) (Batch.mkNew "t2" "S" 5 (some 7)) ∧
      ¬ batchLe (Batch.mkNew "t2" "S" 5 (some 7)) (Batch.mkNew "t1" "S" 5 (some 3))) :=
  ⟨batch_order_warehouse_first_then_eta_and_sort_stable.1 _ _ rfl (by decide),
   batch_order_warehouse_first_then_eta_and_sort_stable.2.1 _ _ 3 7 rfl rfl (by decide)⟩

/-- C6 (counterexample): a batch that already holds the line.  SKU matches
and available quantity (8) covers the requested 2, yet `allocate` is a
set-level no-op, so `available_quantity` does not decrease by `l.qty`. -/
theorem allocate_no_decrease_when_line_already_allocated :
    (Batch.mk "b1" "S" none 10 [⟨"o1", "S", 2⟩]).sku = OrderLine.sku ⟨"o1", "S", 2⟩ ∧
    OrderLine.qty ⟨"o1", "S", 2⟩
      ≤ (Batch.mk "b1" "S" none 10 [⟨"o1", "S", 2⟩]).available_quantity ∧
    ¬ (((Batch.mk "b1" "S" none 10 [⟨"o1", "S", 2⟩]).allocate
          ⟨"o1", "S", 2⟩).available_quantity
        = (Batch.mk "b1" "S" none 10 [⟨"o1", "S", 2⟩]).available_quantity
          - OrderLine.qty ⟨"o1", "S", 2⟩) := by
  decide

/-- C6 (amended): for a line not already in the batch's allocations, with
matching SKU and sufficient available quantity: `can_allocate` is true,
one `allocate` call decreases `available_quantity` by exactly `l.qty`,
and a second `allocate` with the same line changes nothing further. -/
theorem can_allocate_and_allocate_decreases_once_for_fresh_line
    (b : Batch) (l : OrderLine)
    (hsku : b.sku = l.sku) (hq : l.qty ≤ b.available_quantity)
    (hfresh : l ∉ b.allocations) :
    b.can_allocate l = true ∧
    (b.allocate l).available_quantity = b.available_quantity - l.qty ∧
    (b.allocate l).allocate l = b.allocate l := by
  have hc : b.can_allocate l = true := (Batch.can_allocate_iff b l).2 ⟨hsku, hq⟩
  refine ⟨hc, ?_, Batch.allocate_idem b l⟩
  rw [b.allocate_of_fresh l hc hfresh]
  simp [Batch.available_quantity, Batch.allocated_quantity]
  ring

/-- Witness for the amended C6 at a concrete fresh line. -/
theorem can_allocate_and_allocate_decreases_once_for_fresh_line_witness :
    (Batch.mkNew "b1" "S" 10 none).can_allocate ⟨"o1", "S", 2⟩ = true ∧
    ((Batch.mkNew "b1" "S" 10 none).allocate ⟨"o1", "S", 2⟩).available_quantity
      = (Batch.mkNew "b1" "S" 10 none).available_quantity - OrderLine.qty ⟨"o1", "S", 2⟩ ∧
    (((Batch.mkNew "b1" "S" 10 none).allocate ⟨"o1", "S", 2⟩).allocate ⟨"o1", "S", 2⟩)
      = (Batch.mkNew "b1" "S" 10 none).allocate ⟨"o1", "S", 2⟩ :=
  can_allocate_and_allocate_decreases_once_for_fresh_line
    (Batch.mkNew "b1" "S" 10 none) ⟨"o1", "S", 2⟩
    (by decide) (by decide) (by decide)

/-- C7 (counterexample): if the line is already allocated to the batch,
`allocate` is a no-op but `deallocate` removes it, so the round trip
raises `available_quantity` from 8 to 10 instead of restoring it. -/
theorem roundtrip_fails_when_line_already_allocated :
    ¬ ((((Batch.mk "b1" "S" none 10 [⟨"o1", "S", 2⟩]).allocate
          ⟨"o1", "S", 2⟩).deallocate ⟨"o1", "S", 2⟩).available_quantity
        = (Batch.mk "b1" "S" none 10 [⟨"o1", "S", 2⟩]).available_quantity) := by
  decide

/-- C7 (amended): for a line not already in the batch's allocations,
`allocate` followed by `deallocate` with the same line restores
`available_quantity` to its prior value. -/
theorem allocate_deallocate_roundtrip_for_fresh_line
    (b : Batch) (l : OrderLine) (hfresh : l ∉ b.allocations) :
    ((b.allocate l).deallocate l).available_quantity = b.available_quantity := by
  rw [Batch.allocate_deallocate_of_fresh b l hfresh]

/-- Witness for the amended C7 at a concrete fresh line. -/
theorem allocate_deallocate_roundtrip_for_fresh_line_witness :
    (((Batch.mkNew "b1" "S" 10 none).allocate ⟨"o1", "S", 2⟩).deallocate
        ⟨"o1", "S", 2⟩).available_quantity
      = (Batch.mkNew "b1" "S" 10 none).available_quantity :=
  allocate_deallocate_roundtrip_for_fresh_line
    (Batch.mkNew "b1" "S" 10 none) ⟨"o1", "S", 2⟩ (by decide)

/-! ### C10: idempotence of the service under unchanged eligibility -/

/-- Two pointwise related lists whose related elements share etas stay
pointwise related through `orderedInsert` of related elements: the
comparison reads only etas, so both inserts take the same branch. -/
theorem orderedInsert_forall₂ {R : Batch → Batch → Prop}
    (hR : ∀ u v : Batch, R u v → u.eta = v.eta) {x x' : Batch} (hx : R x x') :
    ∀ {l l' : List Batch}, List.Forall₂ R l l' →
      List.Forall₂ R (List.orderedInsert batchLe x l)
        (List.orderedInsert batchLe x' l') := by
  intro l l' h
  induction h with
  | nil => exact List.Forall₂.cons hx List.Forall₂.nil
  | cons hab htail ih =>
    rename_i a a' t t'
    simp only [List.orderedInsert]
    have hcond : batchLe x a ↔ batchLe x' a' := by
      unfold batchLe
      rw [Batch.gt_eq_gtOpt, Batch.gt_eq_gtOpt, hR x x' hx, hR a a' hab]
    by_cases hle : batchLe x a
    · rw [if_pos hle, if_pos (hcond.1 hle)]
      exact List.Forall₂.cons hx (List.Forall₂.cons hab htail)
    · rw [if_neg hle, if_neg (fun hc => hle (hcond.2 hc))]
      exact List.Forall₂.cons hab ih

/-- The stable sort acts in parallel on two pointwise related lists whose
related elements share etas. -/
theorem insertionSort_forall₂ {R : Batch → Batch → Prop}
    (hR : ∀ u v : Batch, R u v → u.eta = v.eta) :
    ∀ {l l' : List Batch}, List.Forall₂ R l l' →
      List.Forall₂ R (List.insertionSort batchLe l)
        (List.insertionSort batchLe l') := by
  intro l l' h
  induction h with
  | nil => exact List.Forall₂.nil
  | cons hab htail ih =>
    simp only [List.insertionSort]
    exact orderedInsert_forall₂ hR hab ih

theorem forall₂_append_cons_decomp {R : Batch → Batch → Prop} :
    ∀ {l₁ : List Batch} {b : Batch} {l₂ m : List Batch},
      List.Forall₂ R (l₁ ++ b :: l₂) m →
      ∃ m₁ y m₂, m = m₁ ++ y :: m₂ ∧ List.Forall₂ R l₁ m₁ ∧ R b y ∧
        List.Forall₂ R l₂ m₂
  | [], b, l₂, m, h => by
    obtain ⟨y, m₂, hby, h₂, hm⟩ := List.forall₂_cons_left_iff.1 h
    exact ⟨[], y, m₂, hm, List.Forall₂.nil, hby, h₂⟩
  | a :: t, b, l₂, m, h => by
    obtain ⟨v, m', hav, h', hm⟩ := List.forall₂_cons_left_iff.1 h
    obtain ⟨m₁, y, m₂, hm', h₁, hby, h₂⟩ := forall₂_append_cons_decomp h'
    exact ⟨v :: m₁, y, m₂, by rw [hm, hm']; rfl, List.Forall₂.cons hav h₁,
      hby, h₂⟩

/-- Positions that do not hold the replaced batch are unchanged. -/
theorem forall₂_untouched_eq {b b2 : Batch} :
    ∀ {l m : List Batch},
      List.Forall₂ (fun u v => u = v ∨ (u = b ∧ v = b2)) l m →
      (∀ u ∈ l, u ≠ b) → m = l := by
  intro l m h hne
  induction h with
  | nil => rfl
  | cons hab htail ih =>
    rename_i a a' t t'
    rcases hab with h1 | ⟨h2, _⟩
    · rw [ih (fun u hu => hne u (List.mem_cons_of_mem a hu)), h1]
    · exact absurd h2 (hne a (List.mem_cons_self a t))

theorem find?_skips_false_front {α : Type} {p : α → Bool} {y : α}
    (hy : p y = true) :
    ∀ (l₁ l₂ : List α), (∀ x ∈ l₁, p x = false) →
      (l₁ ++ y :: l₂).find? p = some y
  | [], l₂, _ => by rw [List.nil_append, List.find?_cons_of_pos _ hy]
  | x :: t, l₂, hpre => by
    have hx : ¬ p x = true := by
      rw [hpre x (List.mem_cons_self x t)]
      exact Bool.false_ne_true
    rw [List.cons_append, List.find?_cons_of_neg _ hx]
    exact find?_skips_false_front hy t l₂
      (fun u hu => hpre u (List.mem_cons_of_mem x hu))

/-- After replacing the first occurrence of `b` by `b2`, the first
element passing a filter that accepts only `b` and `b2` is `b2`: every
earlier position is either filtered out or already holds `b2`. -/
theorem filter_replaceFirst_head {q : Batch → Bool} {b b2 : Batch}
    (hq2 : q b2 = true)
    (honly : ∀ x : Batch, q x = true → x = b ∨ x = b2) :
    ∀ {l : List Batch}, b ∈ l →
      ∃ rest, (replaceFirst l b b2).filter q = b2 :: rest := by
  intro l hmem
  induction l with
  | nil => exact absurd hmem (List.not_mem_nil b)
  | cons x t ih =>
    unfold replaceFirst
    by_cases hx : x = b
    · rw [if_pos hx]
      exact ⟨t.filter q, List.filter_cons_of_pos hq2⟩
    · rw [if_neg hx]
      have hmem' : b ∈ t := by
        rcases List.mem_cons.1 hmem with h | h
        · exact absurd h.symm hx
        · exact h
      by_cases hqx : q x = true
      · rcases honly x hqx with h | h
        · exact absurd h hx
        · refine ⟨(replaceFirst t b b2).filter q, ?_⟩
          rw [List.filter_cons_of_pos hqx, h]
      · obtain ⟨rest, hrest⟩ := ih hmem'
        refine ⟨rest, ?_⟩
        rw [List.filter_cons_of_neg (by simpa using hqx), hrest]

/-- C10: if a service call succeeds by selecting batch `b` and the
updated batch can still allocate the same line, a second identical call
returns the same reference and changes no batch: the sort order is
unchanged (etas are untouched), every batch before the selected one is
still ineligible, and re-adding the line to the selected batch's
allocation set is a no-op. -/
theorem allocate_idempotent_when_selected_batch_still_eligible
    (line : OrderLine) (bs : List Batch) (b : Batch)
    (hfind : (sortBatches bs).find? (fun x => x.can_allocate line) = some b)
    (hstill : (b.allocate line).can_allocate line = true) :
    allocate line ((allocate line bs).2)
      = ((allocate line bs).1, (allocate line bs).2) := by
  have hcb : b.can_allocate line = true :=
    List.find?_some (p := fun (x : Batch) => x.can_allocate line) hfind
  have hmem : b ∈ bs :=
    (List.mem_insertionSort batchLe).1 (List.mem_of_find?_eq_some hfind)
  rw [allocate_eq_of_found hfind]
  obtain ⟨l₁, l₂, hsplit, hpre⟩ := findSplit hfind
  have hReta : ∀ u v : Batch,
      (u = v ∨ (u = b ∧ v = b.allocate line)) → u.eta = v.eta := by
    rintro u v (rfl | ⟨rfl, rfl⟩)
    · rfl
    · exact (Batch.allocate_eta u line).symm
  have hFs := insertionSort_forall₂ hReta
    (forall₂_replaceFirst b (b.allocate line) bs)
  rw [show List.insertionSort batchLe bs = sortBatches bs from rfl, hsplit] at hFs
  obtain ⟨m₁, y, m₂, hm, h₁, hby, h₂⟩ := forall₂_append_cons_decomp hFs
  have hne : ∀ u ∈ l₁, u ≠ b := by
    intro u hu hub
    have hu' := hpre u hu
    rw [hub, hcb] at hu'
    exact absurd hu' (by decide)
  have hm₁ : m₁ = l₁ := forall₂_untouched_eq h₁ hne
  have hy : y = b ∨ y = b.allocate line := by
    rcases hby with h | ⟨_, h⟩
    · exact Or.inl h.symm
    · exact Or.inr h
  have hpy : y.can_allocate line = true := by
    rcases hy with h | h <;> rw [h]
    · exact hcb
    · exact hstill
  have hfind2 : (sortBatches (replaceFirst bs b (b.allocate line))).find?
      (fun x => x.can_allocate line) = some y := by
    show (List.insertionSort batchLe
      (replaceFirst bs b (b.allocate line))).find? _ = some y
    rw [hm, hm₁]
    exact find?_skips_false_front (p := fun (x : Batch) => x.can_allocate line) hpy l₁ m₂ hpre
  have hyb2 : y = b.allocate line := by
    rcases hy with hyb | h
    · by_cases hbb : b.allocate line = b
      · rw [hyb, hbb]
      · exfalso
        have hqb2 : (fun x : Batch => (x == b) || (x == b.allocate line))
            (b.allocate line) = true := by simp
        have honly : ∀ x : Batch,
            (fun x : Batch => (x == b) || (x == b.allocate line)) x = true →
              x = b ∨ x = b.allocate line := by
          intro x hx
          simpa using hx
        have hhe : ∀ u v : Batch,
            (fun x : Batch => (x == b) || (x == b.allocate line)) u = true →
            (fun x : Batch => (x == b) || (x == b.allocate line)) v = true →
              Batch.gt u v = false := by
          intro u v hu hv
          rw [Batch.gt_eq_gtOpt]
          have heta : ∀ w : Batch,
              ((w == b) || (w == b.allocate line)) = true → w.eta = b.eta := by
            intro w hw
            rcases (by simpa using hw : w = b ∨ w = b.allocate line) with
              rfl | rfl
            · rfl
            · exact Batch.allocate_eta b line
          exact gtOpt_of_eq _ _ ((heta u hu).trans (heta v hv).symm)
        have hstable := filter_sortBatches
          (fun x : Batch => (x == b) || (x == b.allocate line)) hhe
          (replaceFirst bs b (b.allocate line))
        obtain ⟨rest, hrest⟩ :=
          filter_replaceFirst_head hqb2 honly hmem
        have hl₁ : l₁.filter
            (fun x : Batch => (x == b) || (x == b.allocate line)) = [] := by
          rw [List.filter_eq_nil_iff]
          intro x hx hqx
          rcases honly x hqx with h | h
          · have hfx := hpre x hx
            rw [h, hcb] at hfx
            exact absurd hfx (by decide)
          · have hfx := hpre x hx
            rw [h, hstill] at hfx
            exact absurd hfx (by decide)
        have hm2 : sortBatches (replaceFirst bs b (b.allocate line))
            = m₁ ++ y :: m₂ := hm
        rw [hm2, hm₁, List.filter_append, hl₁, List.nil_append, hrest, hyb]
          at hstable
        rw [show List.filter
              (fun x : Batch => (x == b) || (x == b.allocate line)) (b :: m₂)
            = b :: List.filter
              (fun x : Batch => (x == b) || (x == b.allocate line)) m₂
          from by simp] at hstable
        exact hbb ((List.cons.inj hstable).1).symm
    · exact h
  rw [allocate_eq_of_found hfind2, hyb2, Batch.allocate_idem b line,
    replaceFirst_self, Batch.allocate_reference b line]

/-- Witness for C10: one warehouse batch with spare capacity; the second
identical call returns the same reference and leaves the state as is. -/
theorem allocate_idempotent_when_selected_batch_still_eligible_witness :
    allocate ⟨"o1", "LAMP", 2⟩
        ((allocate ⟨"o1", "LAMP", 2⟩ [Batch.mkNew "wh" "LAMP" 20 none]).2)
      = ((allocate ⟨"o1", "LAMP", 2⟩ [Batch.mkNew "wh" "LAMP" 20 none]).1,
         (allocate ⟨"o1", "LAMP", 2⟩ [Batch.mkNew "wh" "LAMP" 20 none]).2) :=
  allocate_idempotent_when_selected_batch_still_eligible
    ⟨"o1", "LAMP", 2⟩ [Batch.mkNew "wh" "LAMP" 20 none]
    (Batch.mkNew "wh" "LAMP" 20 none) rfl (by decide)

/-! ### C9: the non-negativity invariant -/

/-- Batches whose allocations set has only ever been touched through the
public API: constructed with a non-negative purchased quantity, then
modified only by `allocate` / `deallocate` with lines of positive
quantity (the reads `can_allocate`, `allocated_quantity` and
`available_quantity` do not change the state, so they need no case). -/
inductive Reachable : Batch → Prop where
  | init (ref sku : String) (qty : Int) (eta : Option Int) (h : 0 ≤ qty) :
      Reachable (Batch.mkNew ref sku qty eta)
  | alloc (b : Batch) (line : OrderLine) (hr : Reachable b) (hq : 0 < line.qty) :
      Reachable (b.allocate line)
  | dealloc (b : Batch) (line : OrderLine) (hr : Reachable b) (hq : 0 < line.qty) :
      Reachable (b.deallocate line)

/-- Strengthened induction: a reachable batch holds only positive-quantity
lines and keeps a non-negative available quantity. -/
theorem reachable_strong {b : Batch} (h : Reachable b) :
    (∀ l ∈ b.allocations, 0 < l.qty) ∧ 0 ≤ b.available_quantity := by
  induction h with
  | init ref sku qty eta h =>
    refine ⟨fun l hl => absurd hl (List.not_mem_nil l), ?_⟩
    simpa [Batch.mkNew, Batch.available_quantity, Batch.allocated_quantity] using h
  | alloc b line hr hq ih =>
    by_cases hc : b.can_allocate line = true
    · by_cases hm : line ∈ b.allocations
      · rw [Batch.allocate_of_mem b line hm]; exact ih
      · rw [Batch.allocate_of_fresh b line hc hm]
        refine ⟨?_, ?_⟩
        · intro l hl
          rcases List.mem_append.1 hl with h1 | h2
          · exact ih.1 l h1
          · rw [List.mem_singleton.1 h2]; exact hq
        · have hcan := ((Batch.can_allocate_iff b line).1 hc).2
          simp only [Batch.available_quantity, Batch.allocated_quantity,
            List.map_append, List.sum_append, List.map_cons, List.map_nil,
            List.sum_cons, List.sum_nil] at hcan ⊢
          omega
    · rw [Batch.allocate_of_not_can b line hc]; exact ih
  | dealloc b line hr hq ih =>
    unfold Batch.deallocate
    refine ⟨fun l hl => ih.1 l (List.mem_of_mem_erase hl), ?_⟩
    by_cases hm : line ∈ b.allocations
    · have hperm : List.Perm (b.allocations.map OrderLine.qty)
          (line.qty :: (b.allocations.erase line).map OrderLine.qty) := by
        simpa using (List.perm_cons_erase hm).map OrderLine.qty
      have hsum := hperm.sum_eq
      have hpos := ih.1 line hm
      have hav := ih.2
      simp only [Batch.available_quantity, Batch.allocated_quantity,
        List.sum_cons] at hav hsum ⊢
      omega
    · rw [List.erase_of_not_mem hm]
      exact ih.2

/-- C9: every batch built with non-negative purchased quantity and touched
only through `allocate`/`deallocate` with positive-quantity lines has
`available_quantity ≥ 0`, initially and after every operation; the domain
service preserves the property for every batch of its list (the pure
reads do not modify state, so they preserve it trivially). -/
theorem available_quantity_nonneg_invariant :
    (∀ b : Batch, Reachable b → 0 ≤ b.available_quantity) ∧
    (∀ (line : OrderLine) (bs : List Batch), 0 < line.qty →
      (∀ b ∈ bs, Reachable b) →
      ∀ b2 ∈ (allocate line bs).2, 0 ≤ b2.available_quantity) := by
  have main : ∀ b : Batch, Reachable b → 0 ≤ b.available_quantity :=
    fun _ h => (reachable_strong h).2
  refine ⟨main, ?_⟩
  intro line bs hq hall b2 hb2
  cases hfind : (sortBatches bs).find? (fun x => x.can_allocate line) with
  | none =>
    rw [allocate_eq_of_not_found hfind] at hb2
    exact main b2 (hall b2 hb2)
  | some b =>
    rw [allocate_eq_of_found hfind] at hb2
    rcases mem_replaceFirst hb2 with h1 | h2
    · exact main b2 (hall b2 h1)
    · have hmem : b ∈ bs :=
        (List.mem_insertionSort batchLe).1 (List.mem_of_find?_eq_some hfind)
      rw [h2]
      exact main _ (Reachable.alloc b line (hall b hmem) hq)

/-- Witness for C9: a freshly constructed batch, and the batch list after
one successful service call. -/
theorem available_quantity_nonneg_invariant_witness :
    0 ≤ (Batch.mkNew "b" "S" 5 none).available_quantity ∧
    0 ≤ (Batch.mk "b" "S" none 5 [⟨"o1", "S", 2⟩]).available_quantity :=
  ⟨available_quantity_nonneg_invariant.1 _
      (Reachable.init "b" "S" 5 none (by decide)),
   available_quantity_nonneg_invariant.2 ⟨"o1", "S", 2⟩
      [Batch.mkNew "b" "S" 5 none] (by decide)
      (fun x hx => by
        rw [List.mem_singleton.1 hx]
        exact Reachable.init "b" "S" 5 none (by decide))
      (Batch.mk "b" "S" none 5 [⟨"o1", "S", 2⟩]) (by decide)⟩

end Model
